import Mathlib

/-!
Verification of the Mandelbrot renderer (src/main.cc).

The numeric kernel is embedded over exact rationals in place of C `float`
arithmetic; every concrete evaluation performed below (the fixed point at the
origin, the escape at (2, 2), the zero color channels) is exact in IEEE
floating point as well, because all intermediate values are small integers
exactly representable in `float`.  The display color map uses `sqrtf`, which is
embedded over the reals with `Real.sqrt`.

The work distributor (`WorkStealing` / `ComputeMandelbrot`) is embedded as a
schedule-driven small-step system: a state carries the shared row cursor, the
instrumented sequence of claimed rows, the shared buffer, and the status of
each worker; one step makes one worker perform either its guarded
read-and-increment claim, its termination test, or the computation of its
claimed row.  A schedule (an arbitrary list of worker indices) chooses the
interleaving; a completed pass is a schedule after which every worker has
terminated, which is what the thread join in `ComputeMandelbrot` waits for.
-/

namespace Mandelbrot

/-- Plane boundary constant `MIN_RE` (src/main.cc line 9). -/
def MIN_RE : ℚ := -5/2

/-- Plane boundary constant `MAX_RE` (src/main.cc line 10). -/
def MAX_RE : ℚ := 1

/-- Plane boundary constant `MIN_IM` (src/main.cc line 11). -/
def MIN_IM : ℚ := -1

/-- Plane boundary constant `MAX_IM` (src/main.cc line 12). -/
def MAX_IM : ℚ := 1

/-- Iteration bound `MAX_ITERATIONS` (src/main.cc line 15). -/
def MAX_ITERATIONS : ℕ := 100000

/-- Escape threshold `THRESHOLD` (src/main.cc line 18). -/
def THRESHOLD : ℚ := 4

/-- Window width `screenWidth = fabs(MAX_RE - MIN_RE) * 400` truncated to
`int` (src/main.cc line 21). -/
def screenWidth : ℤ := Int.floor (|MAX_RE - MIN_RE| * 400)

/-- Window height `screenHeight = fabs(MAX_IM - MIN_IM) * 400` truncated to
`int` (src/main.cc line 22). -/
def screenHeight : ℤ := Int.floor (|MAX_IM - MIN_IM| * 400)

/-- The escape loop body of `ComputeMandelbrotRow` (src/main.cc lines 39-49):
`while (iterations < maxIterations)` update `z ← z² + c`, test the newly
computed `z` against the threshold, and only then increment the counter.
The loop is embedded with explicit fuel `maxIterations - iterations`, so the
guard `iterations < maxIterations` is exactly `fuel ≠ 0`. -/
def mandelbrotIterGo (c_re c_im threshold : ℚ) : ℚ → ℚ → ℕ → ℕ → ℕ
  | _, _, iterations, 0 => iterations
  | z_re, z_im, iterations, fuel + 1 =>
    let z_re_temp := z_re * z_re - z_im * z_im + c_re
    let z_im_new := 2 * z_re * z_im + c_im
    if z_re_temp * z_re_temp + z_im_new * z_im_new > threshold then iterations
    else mandelbrotIterGo c_re c_im threshold z_re_temp z_im_new (iterations + 1) fuel

/-- The per-pixel escape evaluator of `ComputeMandelbrotRow`
(src/main.cc lines 36-49): the orbit starts at `z = c`
(`float z_re = c_re, z_im = c_im`) with the counter at `0`. -/
def mandelbrotIter (c_re c_im : ℚ) (maxIterations : ℕ) (threshold : ℚ) : ℕ :=
  mandelbrotIterGo c_re c_im threshold c_re c_im 0 maxIterations

/-- The orbit of the recurrence `z ← z² + c` started at `z = c`, as described
by the spec (§4.1): `orbit 0 = c`, `orbit (n+1) = (orbit n)² + c`. -/
def mandelbrotOrbit (c_re c_im : ℚ) : ℕ → ℚ × ℚ
  | 0 => (c_re, c_im)
  | n + 1 =>
    let z := mandelbrotOrbit c_re c_im n
    (z.1 * z.1 - z.2 * z.2 + c_re, 2 * z.1 * z.2 + c_im)

/-- Squared magnitude `z_re² + z_im²` used by the escape test. -/
def normSq (z : ℚ × ℚ) : ℚ := z.1 * z.1 + z.2 * z.2

/-- Reference escape-time definition, following the spec's words (§4.1): the
counter value returned is the first `n < maxIterations` such that the newly
computed orbit point `orbit (n+1)` has squared magnitude above the threshold
(the test runs after the update and before the increment, so the counter still
reads `n` when `orbit (n+1)` is found escaped), and `maxIterations` when no
such `n` exists below the bound. -/
def escapeSpec (c_re c_im : ℚ) (maxIterations : ℕ) (threshold : ℚ) : ℕ :=
  (((List.range maxIterations).find? fun n =>
      decide (threshold < normSq (mandelbrotOrbit c_re c_im (n + 1))))).getD maxIterations

/-- Imaginary coordinate of row `y` (src/main.cc line 32):
`c_im = MIN_IM + y * (MAX_IM - MIN_IM) / screenHeight`.  The divisor is the
fixed global `screenHeight`, not a per-call height. -/
def rowIm (y : ℕ) : ℚ := MIN_IM + (y : ℚ) * (MAX_IM - MIN_IM) / (screenHeight : ℚ)

/-- Value computed for pixel `(x, y)` of a row of width `width`
(src/main.cc lines 31-49): `scaleX = (MAX_RE - MIN_RE) / width`,
`c_re = MIN_RE + x * scaleX`, then the escape evaluator at `(c_re, c_im)`. -/
def pixelValue (width x y : ℕ) : ℕ :=
  let scaleX := (MAX_RE - MIN_RE) / (width : ℚ)
  let c_re := MIN_RE + (x : ℚ) * scaleX
  mandelbrotIter c_re (rowIm y) MAX_ITERATIONS THRESHOLD

/-- `ComputeMandelbrotRow` (src/main.cc lines 30-53) as a buffer transformer:
the `for (x = 0; x < width; ++x)` loop writes `buffer[y * width + x]` for each
column in turn.  The buffer is a map from flat index to an optional stored
value; `none` models a cell never written. -/
def ComputeMandelbrotRow (buffer : ℕ → Option ℕ) (width y : ℕ) : ℕ → Option ℕ :=
  (List.range width).foldl
    (fun buf x => Function.update buf (y * width + x) (some (pixelValue width x y))) buffer

/-- The flat indices written by the loop of `ComputeMandelbrotRow`, in loop
order: iteration `x` writes index `y * width + x`. -/
def rowWriteIndices (width y : ℕ) : List ℕ :=
  (List.range width).map fun x => y * width + x

/-- Status of one worker of `WorkStealing` (src/main.cc lines 56-75):
about to attempt a claim, holding a claimed row it has not yet computed,
or terminated. -/
inductive WStatus where
  | idle : WStatus
  | working (row : ℕ) : WStatus
  | done : WStatus
deriving DecidableEq

/-- Shared state of one computation pass: the atomic row cursor `nextRow`
(src/main.cc line 26), the instrumented sequence of rows claimed so far, the
shared output buffer, and the status of each spawned worker. -/
structure MState where
  cursor : ℕ
  claims : List ℕ
  buf : ℕ → Option ℕ
  workers : List WStatus

/-- State at the start of a pass: `nextRow` is `0`, nothing is claimed, the
buffer holds its caller-supplied initial contents, and all `W` workers are
about to attempt their first claim. -/
def initState (W : ℕ) (buf0 : ℕ → Option ℕ) : MState :=
  { cursor := 0, claims := [], buf := buf0, workers := List.replicate W WStatus.idle }

/-- One step of worker `i` in `WorkStealing` (src/main.cc lines 57-74).
An idle worker performs the guarded claim: under the lock it reads `nextRow`;
if it is below `height` it records that row and increments the cursor,
otherwise it terminates (`rowToProcess == -1` path).  A worker holding row `r`
computes it via `ComputeMandelbrotRow` outside the lock and returns to the top
of its loop.  A terminated or nonexistent worker does nothing. -/
def wstep (width height : ℕ) (s : MState) (i : ℕ) : MState :=
  match s.workers[i]? with
  | some WStatus.idle =>
    if s.cursor < height then
      { s with cursor := s.cursor + 1, claims := s.claims ++ [s.cursor],
               workers := s.workers.set i (WStatus.working s.cursor) }
    else
      { s with workers := s.workers.set i WStatus.done }
  | some (WStatus.working r) =>
    { s with buf := ComputeMandelbrotRow s.buf width r,
             workers := s.workers.set i WStatus.idle }
  | _ => s

/-- Run a computation pass with `W` spawned workers under an interleaving
chosen by `sched`: each entry of `sched` lets the named worker take its next
step.  `ComputeMandelbrot` (src/main.cc lines 79-90) spawns the workers and
joins them all, so the passes it produces are exactly the completed ones. -/
def exec (width height : ℕ) (buf0 : ℕ → Option ℕ) (W : ℕ) (sched : List ℕ) : MState :=
  sched.foldl (wstep width height) (initState W buf0)

/-- All spawned workers have terminated: the condition established by the
`thread.join()` loop (src/main.cc lines 87-89) before `ComputeMandelbrot`
returns. -/
def allDone (s : MState) : Bool :=
  s.workers.all fun w => decide (w = WStatus.done)

/-- Row `y` is currently claimed by some worker that has not yet finished
computing it. -/
def pendingRow (s : MState) (y : ℕ) : Prop :=
  ∃ j : ℕ, s.workers[j]? = some (WStatus.working y)

/-- Every cell of row `y` holds its computed pixel value. -/
def rowWritten (width : ℕ) (buffer : ℕ → Option ℕ) (y : ℕ) : Prop :=
  ∀ x, x < width → buffer (y * width + x) = some (pixelValue width x y)

/-- Invariant of the work-stealing pass, maintained by every step of every
worker: the claim sequence is exactly `0, 1, ..., cursor-1`; the cursor never
exceeds `height`; the worker pool keeps its size; every claimed-but-unfinished
row is below the cursor; every row below the cursor is either still pending or
fully written; and a worker terminates only once the cursor has reached
`height`. -/
structure Inv (width height W : ℕ) (s : MState) : Prop where
  claims_eq : s.claims = List.range s.cursor
  cursor_le : s.cursor ≤ height
  workers_len : s.workers.length = W
  pending_lt : ∀ y, pendingRow s y → y < s.cursor
  covered : ∀ y, y < s.cursor → pendingRow s y ∨ rowWritten width s.buf y
  done_cursor : WStatus.done ∈ s.workers → height ≤ s.cursor

/-- The thread count chosen by `ComputeMandelbrot` (src/main.cc line 80):
`const int numThreads = std::thread::hardware_concurrency();` with the
detected hardware concurrency as an external input.  No minimum is applied. -/
def numThreads (hardwareConcurrency : ℕ) : ℕ := hardwareConcurrency

/-- The workers spawned by the loop `for (i = 0; i < numThreads; ++i)`
(src/main.cc lines 83-85), by index. -/
def spawnedWorkers (hardwareConcurrency : ℕ) : List ℕ :=
  List.range (numThreads hardwareConcurrency)

/-- An RGBA color as produced for raylib (fields in `[0, 255]`). -/
structure Color where
  r : ℕ
  g : ℕ
  b : ℕ
  a : ℕ
deriving DecidableEq

/-- raylib's `BLACK = { 0, 0, 0, 255 }`. -/
def BLACK : Color := { r := 0, g := 0, b := 0, a := 255 }

/-- The C cast `(unsigned char)` applied to a nonnegative `float` channel
value: truncation toward zero, reduced mod 256 (values at or above 256 are
out of range for the cast; no claim below depends on them). -/
noncomputable def toUChar (v : ℝ) : ℕ := (Int.floor v).toNat % 256

/-- `GetColorFromIterations` (src/main.cc lines 93-106): return `BLACK` when
`iterations == maxIterations`; otherwise gamma-correct
`t = sqrtf(iterations / maxIterations)` and build the polynomial gradient
channels. -/
noncomputable def GetColorFromIterations (iterations : ℝ) (maxIterations : ℕ) : Color :=
  if iterations = (maxIterations : ℝ) then BLACK
  else
    let t := Real.sqrt (iterations / (maxIterations : ℝ))
    { r := toUChar (9 * (1 - t) * t * t * 255),
      g := toUChar (15 * (1 - t) * (1 - t) * t * 255),
      b := toUChar (12 * (1 - t) * (1 - t) * (1 - t) * t * 255),
      a := 255 }

/-! Helper lemmas: the escape loop. -/

/-- The loop counter never exceeds its starting value plus the remaining fuel. -/
theorem mandelbrotIterGo_le (c_re c_im th : ℚ) :
    ∀ (fuel : ℕ) (z_re z_im : ℚ) (iters : ℕ),
      mandelbrotIterGo c_re c_im th z_re z_im iters fuel ≤ iters + fuel := by
  intro fuel
  induction fuel with
  | zero => intro z_re z_im iters; rw [mandelbrotIterGo]; omega
  | succ n ih =>
    intro z_re z_im iters
    rw [mandelbrotIterGo]
    split
    · omega
    · exact le_trans (ih _ _ _) (by omega)

/-- The escape evaluator is bounded by `maxIterations`. -/
theorem mandelbrotIter_le (c_re c_im : ℚ) (maxIterations : ℕ) (th : ℚ) :
    mandelbrotIter c_re c_im maxIterations th ≤ maxIterations := by
  have h := mandelbrotIterGo_le c_re c_im th maxIterations c_re c_im 0
  simpa [mandelbrotIter] using h

/-- Every pixel value is bounded by `MAX_ITERATIONS`. -/
theorem pixelValue_le (width x y : ℕ) : pixelValue width x y ≤ MAX_ITERATIONS := by
  have h := mandelbrotIter_le (MIN_RE + (x : ℚ) * ((MAX_RE - MIN_RE) / (width : ℚ)))
    (rowIm y) MAX_ITERATIONS THRESHOLD
  simpa [pixelValue] using h

/-- Core equivalence between the escape loop and the first-escape search on the
orbit: started from `orbit iters` with counter `iters` and `fuel` steps of
budget, the loop returns `iters + j` for the first `j < fuel` such that
`orbit (iters + j + 1)` escapes, and `iters + fuel` when none does. -/
theorem go_eq_find (c_re c_im th : ℚ) :
    ∀ (fuel iters : ℕ),
      mandelbrotIterGo c_re c_im th (mandelbrotOrbit c_re c_im iters).1
        (mandelbrotOrbit c_re c_im iters).2 iters fuel
      = ((((List.range fuel).find? fun j =>
            decide (th < normSq (mandelbrotOrbit c_re c_im (iters + j + 1)))).map
            fun j => iters + j).getD (iters + fuel)) := by
  intro fuel
  induction fuel with
  | zero => intro iters; rw [mandelbrotIterGo]; simp
  | succ n ih =>
    intro iters
    rw [mandelbrotIterGo]
    have horb :
        (mandelbrotOrbit c_re c_im iters).1 * (mandelbrotOrbit c_re c_im iters).1 -
            (mandelbrotOrbit c_re c_im iters).2 * (mandelbrotOrbit c_re c_im iters).2 + c_re
          = (mandelbrotOrbit c_re c_im (iters + 1)).1 := by
      rw [mandelbrotOrbit]
    have horb2 :
        2 * (mandelbrotOrbit c_re c_im iters).1 * (mandelbrotOrbit c_re c_im iters).2 + c_im
          = (mandelbrotOrbit c_re c_im (iters + 1)).2 := by
      rw [mandelbrotOrbit]
    simp only [horb, horb2]
    rw [List.range_succ_eq_map]
    by_cases h : th < normSq (mandelbrotOrbit c_re c_im (iters + 1))
    · have hcond : (mandelbrotOrbit c_re c_im (iters + 1)).1 * (mandelbrotOrbit c_re c_im (iters + 1)).1 +
          (mandelbrotOrbit c_re c_im (iters + 1)).2 * (mandelbrotOrbit c_re c_im (iters + 1)).2 > th := h
      rw [if_pos hcond]
      rw [List.find?_cons_of_pos _ (by simpa using h)]
      simp
    · have hcond : ¬((mandelbrotOrbit c_re c_im (iters + 1)).1 * (mandelbrotOrbit c_re c_im (iters + 1)).1 +
          (mandelbrotOrbit c_re c_im (iters + 1)).2 * (mandelbrotOrbit c_re c_im (iters + 1)).2 > th) := h
      rw [if_neg hcond]
      rw [List.find?_cons_of_neg _ (by simpa using h)]
      show mandelbrotIterGo c_re c_im th (mandelbrotOrbit c_re c_im (iters + 1)).1
        (mandelbrotOrbit c_re c_im (iters + 1)).2 (iters + 1) n = _
      rw [ih (iters + 1)]
      rw [List.find?_map]
      have hpred : ((fun j => decide (th < normSq (mandelbrotOrbit c_re c_im (iters + j + 1)))) ∘ Nat.succ)
          = fun j => decide (th < normSq (mandelbrotOrbit c_re c_im (iters + 1 + j + 1))) := by
        funext j
        simp only [Function.comp]
        have hidx : iters + Nat.succ j + 1 = iters + 1 + j + 1 := by omega
        rw [hidx]
      rw [hpred]
      cases hfind : (List.range n).find? fun j =>
          decide (th < normSq (mandelbrotOrbit c_re c_im (iters + 1 + j + 1))) with
      | none => simp; omega
      | some j => simp; omega

/-- At `c = (0, 0)` the orbit is the constant `(0, 0)` and the loop consumes
all of its fuel. -/
theorem go_zero (fuel : ℕ) :
    ∀ iterations, mandelbrotIterGo 0 0 4 0 0 iterations fuel = iterations + fuel := by
  induction fuel with
  | zero => intro iterations; rw [mandelbrotIterGo]; omega
  | succ n ih =>
    intro iterations
    rw [mandelbrotIterGo]
    norm_num
    rw [ih]
    omega

/-! Helper lemmas: the row writer. -/

/-- Folding the pixel writes over any list of columns leaves untouched every
index that is not one of the written keys. -/
theorem row_foldl_notin (width y i : ℕ) :
    ∀ (xs : List ℕ) (buffer : ℕ → Option ℕ), (∀ x ∈ xs, y * width + x ≠ i) →
      (xs.foldl (fun buf x => Function.update buf (y * width + x) (some (pixelValue width x y))) buffer) i
        = buffer i := by
  intro xs
  induction xs with
  | nil => intro buffer _; rfl
  | cons a l ih =>
    intro buffer h
    rw [List.foldl_cons, ih _ fun x hx => h x (List.mem_cons_of_mem a hx)]
    exact Function.update_noteq (Ne.symm (h a (List.mem_cons_self a l))) _ _

/-- Folding the pixel writes over a duplicate-free list of columns stores the
computed pixel value at each written key. -/
theorem row_foldl_mem (width y : ℕ) :
    ∀ (xs : List ℕ) (buffer : ℕ → Option ℕ) (x : ℕ), xs.Nodup → x ∈ xs →
      (xs.foldl (fun buf x => Function.update buf (y * width + x) (some (pixelValue width x y))) buffer)
          (y * width + x)
        = some (pixelValue width x y) := by
  intro xs
  induction xs with
  | nil => intro buffer x _ hx; exact absurd hx (List.not_mem_nil x)
  | cons a l ih =>
    intro buffer x hnd hx
    rw [List.foldl_cons]
    rcases List.mem_cons.mp hx with rfl | hxl
    · have hnotl : ∀ x2 ∈ l, y * width + x2 ≠ y * width + x := by
        intro x2 hx2 he
        have : x2 = x := by omega
        exact (List.nodup_cons.mp hnd).1 (this ▸ hx2)
      rw [row_foldl_notin width y (y * width + x) l _ hnotl]
      exact Function.update_same _ _ _
    · exact ih _ x (List.nodup_cons.mp hnd).2 hxl

/-- `ComputeMandelbrotRow` leaves untouched every index outside its row. -/
theorem computeRow_notin (width y : ℕ) (buffer : ℕ → Option ℕ) (i : ℕ)
    (h : ∀ x, x < width → y * width + x ≠ i) :
    ComputeMandelbrotRow buffer width y i = buffer i :=
  row_foldl_notin width y i _ buffer fun x hx => h x (List.mem_range.mp hx)

/-- `ComputeMandelbrotRow` stores the computed pixel value at every cell of its
row. -/
theorem computeRow_at (width x y : ℕ) (buffer : ℕ → Option ℕ) (hx : x < width) :
    ComputeMandelbrotRow buffer width y (y * width + x) = some (pixelValue width x y) :=
  row_foldl_mem width y _ buffer x (List.nodup_range width) (List.mem_range.mpr hx)

/-- Cells of distinct rows have distinct flat indices. -/
theorem row_key_disjoint (width x x2 y r : ℕ) (hx : x < width) (hx2 : x2 < width) (hne : y ≠ r) :
    r * width + x2 ≠ y * width + x := by
  rcases Nat.lt_or_ge y r with h | h
  · have h2 : (y + 1) * width ≤ r * width := Nat.mul_le_mul_right width h
    rw [Nat.succ_mul] at h2
    omega
  · have h4 : r < y := by omega
    have h2 : (r + 1) * width ≤ y * width := Nat.mul_le_mul_right width h4
    rw [Nat.succ_mul] at h2
    omega

/-- After `ComputeMandelbrotRow`, its row is fully written. -/
theorem computeRow_rowWritten (width y : ℕ) (buffer : ℕ → Option ℕ) :
    rowWritten width (ComputeMandelbrotRow buffer width y) y :=
  fun x hx => computeRow_at width x y buffer hx

/-- Computing one row preserves the full contents of every other row. -/
theorem computeRow_preserves (width y r : ℕ) (buffer : ℕ → Option ℕ) (hne : y ≠ r)
    (hw : rowWritten width buffer y) :
    rowWritten width (ComputeMandelbrotRow buffer width r) y := by
  intro x hx
  rw [computeRow_notin width r buffer _ fun x2 hx2 => row_key_disjoint width x x2 y r hx hx2 hne]
  exact hw x hx

/-! Helper lemmas: the work-stealing scheduler. -/

/-- A step of a nonexistent worker does nothing. -/
theorem wstep_none (width height : ℕ) (s : MState) (i : ℕ) (h : s.workers[i]? = none) :
    wstep width height s i = s := by
  unfold wstep; rw [h]

/-- A step of a terminated worker does nothing. -/
theorem wstep_done (width height : ℕ) (s : MState) (i : ℕ)
    (h : s.workers[i]? = some WStatus.done) :
    wstep width height s i = s := by
  unfold wstep; rw [h]

/-- A step of an idle worker is the guarded claim-or-terminate. -/
theorem wstep_idle (width height : ℕ) (s : MState) (i : ℕ)
    (h : s.workers[i]? = some WStatus.idle) :
    wstep width height s i =
      if s.cursor < height then
        { s with cursor := s.cursor + 1, claims := s.claims ++ [s.cursor],
                 workers := s.workers.set i (WStatus.working s.cursor) }
      else
        { s with workers := s.workers.set i WStatus.done } := by
  unfold wstep; rw [h]

/-- A step of a worker holding row `r` computes that row. -/
theorem wstep_working (width height : ℕ) (s : MState) (i r : ℕ)
    (h : s.workers[i]? = some (WStatus.working r)) :
    wstep width height s i =
      { s with buf := ComputeMandelbrotRow s.buf width r,
               workers := s.workers.set i WStatus.idle } := by
  unfold wstep; rw [h]

/-- The row cursor never decreases across any step of any worker. -/
theorem wstep_cursor_mono (width height : ℕ) (s : MState) (i : ℕ) :
    s.cursor ≤ (wstep width height s i).cursor := by
  rcases hmatch : s.workers[i]? with _ | w
  · rw [wstep_none width height s i hmatch]
  · cases w with
    | done => rw [wstep_done width height s i hmatch]
    | idle =>
      rw [wstep_idle width height s i hmatch]
      by_cases hc : s.cursor < height
      · rw [if_pos hc]; exact Nat.le_succ _
      · rw [if_neg hc]
    | working r =>
      rw [wstep_working width height s i r hmatch]

/-- Every step of every worker preserves the pass invariant. -/
theorem inv_wstep (width height W : ℕ) (s : MState) (i : ℕ) (h : Inv width height W s) :
    Inv width height W (wstep width height s i) := by
  rcases hmatch : s.workers[i]? with _ | w
  · rw [wstep_none width height s i hmatch]; exact h
  · have hilen : i < s.workers.length := by
      by_contra hge
      rw [List.getElem?_eq_none (Nat.le_of_not_lt hge)] at hmatch
      exact Option.noConfusion hmatch
    cases w with
    | done => rw [wstep_done width height s i hmatch]; exact h
    | idle =>
      rw [wstep_idle width height s i hmatch]
      by_cases hc : s.cursor < height
      · rw [if_pos hc]
        refine ⟨?_, ?_, ?_, ?_, ?_, ?_⟩
        · show s.claims ++ [s.cursor] = List.range (s.cursor + 1)
          rw [h.claims_eq, List.range_succ]
        · exact hc
        · show (s.workers.set i (WStatus.working s.cursor)).length = W
          rw [List.length_set]; exact h.workers_len
        · rintro y ⟨j, hj⟩
          show y < s.cursor + 1
          by_cases hij : i = j
          · subst hij
            rw [List.getElem?_set_self hilen] at hj
            have hinj : WStatus.working s.cursor = WStatus.working y := Option.some.inj hj
            cases hinj
            omega
          · rw [List.getElem?_set_ne hij] at hj
            have := h.pending_lt y ⟨j, hj⟩
            omega
        · intro y hy
          have hy2 : y < s.cursor + 1 := hy
          rcases Nat.lt_or_ge y s.cursor with hlt | hge
          · rcases h.covered y hlt with ⟨j, hj⟩ | hw
            · left
              refine ⟨j, ?_⟩
              have hij : i ≠ j := by
                intro he; subst he; rw [hmatch] at hj; exact WStatus.noConfusion (Option.some.inj hj)
              show (s.workers.set i (WStatus.working s.cursor))[j]? = some (WStatus.working y)
              rw [List.getElem?_set_ne hij]; exact hj
            · right; exact hw
          · have hyeq : y = s.cursor := by omega
            subst hyeq
            left
            exact ⟨i, by rw [List.getElem?_set_self hilen]⟩
        · intro hdone
          show height ≤ s.cursor + 1
          rcases List.mem_or_eq_of_mem_set hdone with hmem | habs
          · have := h.done_cursor hmem; omega
          · exact absurd habs (by simp)
      · rw [if_neg hc]
        have hhc : height ≤ s.cursor := Nat.le_of_not_lt hc
        refine ⟨h.claims_eq, h.cursor_le, ?_, ?_, ?_, ?_⟩
        · show (s.workers.set i WStatus.done).length = W
          rw [List.length_set]; exact h.workers_len
        · rintro y ⟨j, hj⟩
          show y < s.cursor
          by_cases hij : i = j
          · subst hij
            rw [List.getElem?_set_self hilen] at hj
            exact absurd (Option.some.inj hj) (by simp)
          · rw [List.getElem?_set_ne hij] at hj
            exact h.pending_lt y ⟨j, hj⟩
        · intro y hy
          rcases h.covered y hy with ⟨j, hj⟩ | hw
          · left
            have hij : i ≠ j := by
              intro he; subst he; rw [hmatch] at hj; exact WStatus.noConfusion (Option.some.inj hj)
            exact ⟨j, by rw [List.getElem?_set_ne hij]; exact hj⟩
          · right; exact hw
        · intro _; exact hhc
    | working r =>
      rw [wstep_working width height s i r hmatch]
      refine ⟨h.claims_eq, h.cursor_le, ?_, ?_, ?_, ?_⟩
      · show (s.workers.set i WStatus.idle).length = W
        rw [List.length_set]; exact h.workers_len
      · rintro y ⟨j, hj⟩
        show y < s.cursor
        by_cases hij : i = j
        · subst hij
          rw [List.getElem?_set_self hilen] at hj
          exact absurd (Option.some.inj hj) (by simp)
        · rw [List.getElem?_set_ne hij] at hj
          exact h.pending_lt y ⟨j, hj⟩
      · intro y hy
        by_cases hyr : y = r
        · subst hyr
          right
          exact computeRow_rowWritten width y s.buf
        · rcases h.covered y hy with ⟨j, hj⟩ | hw
          · left
            have hij : i ≠ j := by
              intro he; subst he; rw [hmatch] at hj
              exact hyr (WStatus.working.inj (Option.some.inj hj)).symm
            exact ⟨j, by rw [List.getElem?_set_ne hij]; exact hj⟩
          · right
            exact computeRow_preserves width y r s.buf hyr hw
      · intro hdone
        rcases List.mem_or_eq_of_mem_set hdone with hmem | habs
        · exact h.done_cursor hmem
        · exact absurd habs (by simp)

/-- The pass invariant holds at the start of a pass. -/
theorem inv_initState (width height W : ℕ) (buf0 : ℕ → Option ℕ) :
    Inv width height W (initState W buf0) := by
  refine ⟨?_, ?_, ?_, ?_, ?_, ?_⟩
  · show ([] : List ℕ) = List.range 0
    rw [List.range_zero]
  · exact Nat.zero_le height
  · exact List.length_replicate W WStatus.idle
  · rintro y ⟨j, hj⟩
    have hj2 : (List.replicate W WStatus.idle)[j]? = some (WStatus.working y) := hj
    rw [List.getElem?_replicate] at hj2
    by_cases hjW : j < W
    · rw [if_pos hjW] at hj2
      exact absurd (Option.some.inj hj2) (by simp)
    · rw [if_neg hjW] at hj2
      exact Option.noConfusion hj2
  · intro y hy
    exact absurd hy (Nat.not_lt_zero y)
  · intro hdone
    exact absurd (List.eq_of_mem_replicate hdone) (by simp)

/-- The pass invariant is preserved along any schedule. -/
theorem inv_foldl (width height W : ℕ) :
    ∀ (sched : List ℕ) (s : MState), Inv width height W s →
      Inv width height W (sched.foldl (wstep width height) s) := by
  intro sched
  induction sched with
  | nil => intro s h; exact h
  | cons a l ih =>
    intro s h
    rw [List.foldl_cons]
    exact ih _ (inv_wstep width height W s a h)

/-- The pass invariant holds after any schedule of any pass. -/
theorem inv_exec (width height W : ℕ) (buf0 : ℕ → Option ℕ) (sched : List ℕ) :
    Inv width height W (exec width height buf0 W sched) :=
  inv_foldl width height W sched _ (inv_initState width height W buf0)

/-- After a completed pass with at least one worker: the cursor reached exactly
`height`, the claim sequence is exactly `0, ..., height-1`, and every row is
fully written. -/
theorem exec_final (width height W : ℕ) (buf0 : ℕ → Option ℕ) (sched : List ℕ)
    (hW : 1 ≤ W) (hdone : allDone (exec width height buf0 W sched) = true) :
    (exec width height buf0 W sched).cursor = height ∧
    (exec width height buf0 W sched).claims = List.range height ∧
    ∀ y, y < height → rowWritten width (exec width height buf0 W sched).buf y := by
  have hinv := inv_exec width height W buf0 sched
  set s := exec width height buf0 W sched with hs
  have hall : ∀ w ∈ s.workers, w = WStatus.done := by
    intro w hw
    exact of_decide_eq_true (List.all_eq_true.mp hdone w hw)
  have hne : s.workers ≠ [] := by
    intro hnil
    have hlen := hinv.workers_len
    rw [hnil] at hlen
    simp at hlen
    omega
  obtain ⟨w, hwmem⟩ := List.exists_mem_of_ne_nil s.workers hne
  have hdone_mem : WStatus.done ∈ s.workers := (hall w hwmem) ▸ hwmem
  have hcur : s.cursor = height :=
    Nat.le_antisymm hinv.cursor_le (hinv.done_cursor hdone_mem)
  have hnopending : ∀ y, ¬pendingRow s y := by
    rintro y ⟨j, hj⟩
    have hmem : WStatus.working y ∈ s.workers := List.getElem?_mem hj
    exact absurd (hall _ hmem) (by simp)
  refine ⟨hcur, ?_, ?_⟩
  · rw [hinv.claims_eq, hcur]
  · intro y hy
    rcases hinv.covered y (by omega) with hp | hw2
    · exact absurd hp (hnopending y)
    · exact hw2

/-- After a completed pass, every in-range cell holds its computed pixel
value. -/
theorem exec_buf_cell (width height W : ℕ) (buf0 : ℕ → Option ℕ) (sched : List ℕ)
    (hW : 1 ≤ W) (hdone : allDone (exec width height buf0 W sched) = true)
    (i : ℕ) (hi : i < width * height) :
    (exec width height buf0 W sched).buf i = some (pixelValue width (i % width) (i / width)) := by
  obtain ⟨-, -, hrows⟩ := exec_final width height W buf0 sched hW hdone
  have hwpos : 0 < width := by
    rcases Nat.eq_zero_or_pos width with h0 | h
    · subst h0; simp at hi
    · exact h
  have hx : i % width < width := Nat.mod_lt _ hwpos
  have hy : i / width < height := by
    rw [Nat.div_lt_iff_lt_mul hwpos, Nat.mul_comm height width]
    exact hi
  have hcell := hrows (i / width) hy (i % width) hx
  have hidx : i / width * width + i % width = i := by
    rw [Nat.mul_comm (i / width) width]
    exact Nat.div_add_mod i width
  rw [hidx] at hcell
  exact hcell

/-- A pass with zero spawned workers never changes the state. -/
theorem exec_no_workers (width height : ℕ) (buf0 : ℕ → Option ℕ) (sched : List ℕ) :
    exec width height buf0 0 sched = initState 0 buf0 := by
  unfold exec
  induction sched with
  | nil => rfl
  | cons a l ih =>
    rw [List.foldl_cons, wstep_none width height (initState 0 buf0) a rfl]
    exact ih

/-- The window height derived from the plane bounds at scale 400 is 800. -/
theorem screenHeight_eq : screenHeight = 800 := by
  norm_num [screenHeight, MAX_IM, MIN_IM]

/-! The claims. -/

/-- Claim C2: for every input point, the escape evaluator equals the reference
escape-time definition (orbit started at `z = c`, updated by `z ← z² + c`, the
escape test evaluated on the newly computed `z` before the counter increments,
the current counter returned at the first escape or at `maxIterations`), and
the returned value is always in `[0, maxIterations]`. -/
theorem evaluator_matches_reference (c_re c_im : ℚ) (maxIterations : ℕ) (threshold : ℚ) :
    mandelbrotIter c_re c_im maxIterations threshold = escapeSpec c_re c_im maxIterations threshold ∧
    mandelbrotIter c_re c_im maxIterations threshold ≤ maxIterations := by
  constructor
  · have h := go_eq_find c_re c_im threshold maxIterations 0
    have h0 : mandelbrotOrbit c_re c_im 0 = (c_re, c_im) := rfl
    rw [h0] at h
    simp only [Nat.zero_add] at h
    simp only [mandelbrotIter, escapeSpec]
    rw [h]
    cases hfind : (List.range maxIterations).find? fun n =>
        decide (threshold < normSq (mandelbrotOrbit c_re c_im (n + 1))) with
    | none => simp
    | some j => simp
  · exact mandelbrotIter_le c_re c_im maxIterations threshold

/-- Claim C7: evaluating `c = (0, 0)` with `maxIterations = 100000` and
`threshold = 4` returns exactly `100000`: the orbit never escapes and the loop
runs to the iteration bound. -/
theorem origin_reaches_max_iterations :
    mandelbrotIter 0 0 MAX_ITERATIONS THRESHOLD = 100000 := by
  show mandelbrotIterGo 0 0 4 0 0 0 100000 = 100000
  rw [go_zero 100000 0]

/-- Claim C8: evaluating `c = (2, 2)` with `maxIterations = 100000` and
`threshold = 4` escapes at the very first update (the orbit starts at `c`
itself, and `orbit 1` already exceeds the threshold), so the evaluator returns
the counter value at that first-iteration escape, which is `0` — a small
iteration count. -/
theorem far_point_returns_zero :
    mandelbrotIter 2 2 MAX_ITERATIONS THRESHOLD = 0 ∧
    THRESHOLD < normSq (mandelbrotOrbit 2 2 1) := by
  constructor
  · show mandelbrotIterGo 2 2 4 2 2 0 (99999 + 1) = 0
    rw [mandelbrotIterGo]
    norm_num
  · show (4 : ℚ) < normSq (mandelbrotOrbit 2 2 1)
    norm_num [mandelbrotOrbit, normSq]

/-- Claim C1: for every grid size with `width ≥ 1` and `height ≥ 1` and every
worker count `W ≥ 1`, after the pass completes every cell of the
`width * height` buffer has been written with its computed value — no cell
retains a pre-pass default — and that value is in `[0, MAX_ITERATIONS]`. -/
theorem compute_fills_buffer (width height W : ℕ) (buf0 : ℕ → Option ℕ) (sched : List ℕ)
    (hwidth : 1 ≤ width) (hheight : 1 ≤ height) (hW : 1 ≤ W)
    (hdone : allDone (exec width height buf0 W sched) = true) :
    ∀ i, i < width * height →
      (exec width height buf0 W sched).buf i = some (pixelValue width (i % width) (i / width)) ∧
      pixelValue width (i % width) (i / width) ≤ MAX_ITERATIONS := by
  intro i hi
  exact ⟨exec_buf_cell width height W buf0 sched hW hdone i hi,
    pixelValue_le width (i % width) (i / width)⟩

/-- Witness for C1 at a concrete completed single-worker pass on a 1×1 grid. -/
theorem compute_fills_buffer_witness :
    (1 ≤ 1 ∧ allDone (exec 1 1 (fun _ => none) 1 [0, 0, 0]) = true ∧ (0 : ℕ) < 1 * 1) ∧
    ((exec 1 1 (fun _ => none) 1 [0, 0, 0]).buf 0 = some (pixelValue 1 (0 % 1) (0 / 1)) ∧
      pixelValue 1 (0 % 1) (0 / 1) ≤ MAX_ITERATIONS) :=
  ⟨⟨Nat.le_refl 1, by decide, by decide⟩,
    compute_fills_buffer 1 1 1 (fun _ => none) [0, 0, 0] (Nat.le_refl 1) (Nat.le_refl 1)
      (Nat.le_refl 1) (by decide) 0 (by decide)⟩

/-- Claim C3: within one pass the row cursor starts at `0` and never decreases
at any step; after the pass completes with at least one worker, the claimed
rows are exactly the sequence `0, 1, ..., height - 1` (no duplicates, no gaps)
and the cursor has reached `height`. -/
theorem row_claims_exact (width height W : ℕ) (buf0 : ℕ → Option ℕ) (sched : List ℕ)
    (hW : 1 ≤ W) (hdone : allDone (exec width height buf0 W sched) = true) :
    (initState W buf0).cursor = 0 ∧
    (∀ (s : MState) (i : ℕ), s.cursor ≤ (wstep width height s i).cursor) ∧
    (exec width height buf0 W sched).claims = List.range height ∧
    height ≤ (exec width height buf0 W sched).cursor := by
  obtain ⟨hcur, hclaims, -⟩ := exec_final width height W buf0 sched hW hdone
  exact ⟨rfl, fun s i => wstep_cursor_mono width height s i, hclaims, le_of_eq hcur.symm⟩

/-- Witness for C3 at a concrete completed single-worker pass. -/
theorem row_claims_exact_witness :
    (1 ≤ 1 ∧ allDone (exec 1 1 (fun _ => none) 1 [0, 0, 0]) = true) ∧
    ((initState 1 (fun _ => none)).cursor = 0 ∧
     (∀ (s : MState) (i : ℕ), s.cursor ≤ (wstep 1 1 s i).cursor) ∧
     (exec 1 1 (fun _ => none) 1 [0, 0, 0]).claims = List.range 1 ∧
     1 ≤ (exec 1 1 (fun _ => none) 1 [0, 0, 0]).cursor) :=
  ⟨⟨Nat.le_refl 1, by decide⟩,
    row_claims_exact 1 1 1 (fun _ => none) [0, 0, 0] (Nat.le_refl 1) (by decide)⟩

/-- Claim C4: for a fixed grid, two completed passes with any worker counts
`W₁, W₂ ≥ 1` (and any schedules and any initial buffer contents) produce
identical contents at every one of the `width * height` cells: the
work-distribution scheme does not affect any computed pixel value. -/
theorem buffer_independent_of_worker_count (width height W1 W2 : ℕ)
    (bufA bufB : ℕ → Option ℕ) (schedA schedB : List ℕ)
    (hW1 : 1 ≤ W1) (hW2 : 1 ≤ W2)
    (hd1 : allDone (exec width height bufA W1 schedA) = true)
    (hd2 : allDone (exec width height bufB W2 schedB) = true) :
    ∀ i, i < width * height →
      (exec width height bufA W1 schedA).buf i = (exec width height bufB W2 schedB).buf i := by
  intro i hi
  rw [exec_buf_cell width height W1 bufA schedA hW1 hd1 i hi,
      exec_buf_cell width height W2 bufB schedB hW2 hd2 i hi]

/-- Witness for C4: a one-worker pass and a two-worker pass on the same 1×1
grid agree at cell 0. -/
theorem buffer_independent_of_worker_count_witness :
    (1 ≤ 2 ∧ allDone (exec 1 1 (fun _ => none) 1 [0, 0, 0]) = true ∧
      allDone (exec 1 1 (fun _ => none) 2 [0, 0, 0, 1]) = true) ∧
    (exec 1 1 (fun _ => none) 1 [0, 0, 0]).buf 0
      = (exec 1 1 (fun _ => none) 2 [0, 0, 0, 1]).buf 0 :=
  ⟨⟨by decide, by decide, by decide⟩,
    buffer_independent_of_worker_count 1 1 1 2 (fun _ => none) (fun _ => none)
      [0, 0, 0] [0, 0, 0, 1] (Nat.le_refl 1) (by decide) (by decide) (by decide) 0 (by decide)⟩

/-- Claim C5: computing a claimed row `y < height` writes exactly the cells
with flat indices in `[y * width, (y+1) * width)` — its write trace covers that
interval with no duplicates — stores the computed pixel value in each of those
cells, produces the same values whatever the buffer previously contained
(the loop never reads the buffer), and leaves every cell outside that interval
unchanged. -/
theorem row_write_frame (width height y : ℕ) (buffer : ℕ → Option ℕ) (hy : y < height) :
    (∀ i, i < y * width ∨ (y + 1) * width ≤ i → ComputeMandelbrotRow buffer width y i = buffer i)
    ∧ (∀ x, x < width → ComputeMandelbrotRow buffer width y (y * width + x)
        = some (pixelValue width x y))
    ∧ (∀ (buffer2 : ℕ → Option ℕ) (x : ℕ), x < width →
        ComputeMandelbrotRow buffer width y (y * width + x)
          = ComputeMandelbrotRow buffer2 width y (y * width + x))
    ∧ (rowWriteIndices width y).Nodup
    ∧ (∀ i, i ∈ rowWriteIndices width y ↔ y * width ≤ i ∧ i < (y + 1) * width) := by
  have hsm : (y + 1) * width = y * width + width := Nat.succ_mul y width
  refine ⟨?_, ?_, ?_, ?_, ?_⟩
  · intro i hi
    refine computeRow_notin width y buffer i ?_
    intro x hx
    omega
  · exact fun x hx => computeRow_at width x y buffer hx
  · intro buffer2 x hx
    rw [computeRow_at width x y buffer hx, computeRow_at width x y buffer2 hx]
  · refine List.Nodup.map ?_ (List.nodup_range width)
    intro a b hab
    have hab2 : y * width + a = y * width + b := hab
    omega
  · intro i
    simp only [rowWriteIndices, List.mem_map, List.mem_range]
    constructor
    · rintro ⟨x, hx, rfl⟩
      omega
    · rintro ⟨h1, h2⟩
      exact ⟨i - y * width, by omega, by omega⟩

/-- Witness for C5 at row 0 of a 1×1 grid. -/
theorem row_write_frame_witness :
    (0 : ℕ) < 1 ∧
    ((∀ i, i < 0 * 1 ∨ (0 + 1) * 1 ≤ i →
        ComputeMandelbrotRow (fun _ => none) 1 0 i = (fun _ => (none : Option ℕ)) i)
     ∧ (∀ x, x < 1 → ComputeMandelbrotRow (fun _ => none) 1 0 (0 * 1 + x)
          = some (pixelValue 1 x 0))
     ∧ (∀ (buffer2 : ℕ → Option ℕ) (x : ℕ), x < 1 →
          ComputeMandelbrotRow (fun _ => none) 1 0 (0 * 1 + x)
            = ComputeMandelbrotRow buffer2 1 0 (0 * 1 + x))
     ∧ (rowWriteIndices 1 0).Nodup
     ∧ (∀ i, i ∈ rowWriteIndices 1 0 ↔ 0 * 1 ≤ i ∧ i < (0 + 1) * 1)) :=
  ⟨by decide, row_write_frame 1 1 0 (fun _ => none) (by decide)⟩

/-- Claim C6 counterexample: when the detected hardware concurrency is `0`,
`ComputeMandelbrot` spawns zero workers — the claimed minimum of one worker
does not exist in the code (`numThreads = std::thread::hardware_concurrency()`
with no clamp). -/
theorem no_minimum_worker_count_cex :
    numThreads 0 = 0 ∧ spawnedWorkers 0 = [] ∧ ¬1 ≤ (spawnedWorkers 0).length := by
  refine ⟨rfl, rfl, ?_⟩
  decide

/-- Claim C6 (amended): `compute` spawns exactly `hc` worker tasks where `hc`
is the detected hardware concurrency, with no minimum applied; in particular,
when detection reports zero, no workers are spawned and a pass leaves the
buffer exactly as the caller supplied it. -/
theorem spawn_count_no_minimum (hc width height : ℕ) (buf0 : ℕ → Option ℕ) (sched : List ℕ) :
    (spawnedWorkers hc).length = numThreads hc ∧
    (exec width height buf0 (numThreads 0) sched).buf = buf0 := by
  constructor
  · simp [spawnedWorkers]
  · show (exec width height buf0 0 sched).buf = buf0
    rw [exec_no_workers width height buf0 sched]
    rfl

/-- Claim C9 counterexample: the iteration count `0`, which is strictly below
`MAX_ITERATIONS`, also maps to black — `t = sqrtf(0 / maxIterations) = 0`
makes all three polynomial channels zero — so black is not reserved for
`count == maxIterations`. -/
theorem color_not_black_iff_cex :
    GetColorFromIterations 0 MAX_ITERATIONS = BLACK ∧ (0 : ℕ) ≠ MAX_ITERATIONS := by
  constructor
  · unfold GetColorFromIterations
    rw [if_neg (by norm_num [MAX_ITERATIONS])]
    simp [zero_div, Real.sqrt_zero, toUChar, BLACK]
  · norm_num [MAX_ITERATIONS]

/-- Claim C9 (amended): the display color mapping returns black whenever the
iteration count equals `maxIterations`, but not only then: the count `0`
(strictly below any positive `maxIterations`) also maps to black, because its
gamma-corrected parameter `t` is `0` and all three gradient channels truncate
to `0`. -/
theorem color_black_at_max_and_zero (maxIterations : ℕ) (h : 0 < maxIterations) :
    GetColorFromIterations (maxIterations : ℝ) maxIterations = BLACK ∧
    GetColorFromIterations 0 maxIterations = BLACK := by
  constructor
  · unfold GetColorFromIterations
    rw [if_pos rfl]
  · unfold GetColorFromIterations
    have hne : ¬((0 : ℝ) = (maxIterations : ℝ)) := by
      intro he
      have hz : (maxIterations : ℝ) ≠ 0 := Nat.cast_ne_zero.mpr (by omega)
      exact hz he.symm
    rw [if_neg hne]
    simp [zero_div, Real.sqrt_zero, toUChar, BLACK]

/-- Witness for the amended C9 at `maxIterations = MAX_ITERATIONS`. -/
theorem color_black_at_max_and_zero_witness :
    0 < MAX_ITERATIONS ∧
    (GetColorFromIterations (MAX_ITERATIONS : ℝ) MAX_ITERATIONS = BLACK ∧
     GetColorFromIterations 0 MAX_ITERATIONS = BLACK) :=
  ⟨by decide, color_black_at_max_and_zero MAX_ITERATIONS (by decide)⟩

/-- Claim C10: the per-row helper derives its imaginary coordinate from the
fixed global `screenHeight` (which the plane bounds at scale 400 make `800`)
rather than from the height passed to `compute`: cell values are independent
of the height argument — two completed passes with different heights agree on
every cell they both contain — and with a height other than `screenHeight`
the rows are not mapped evenly onto the imaginary range (at `height = 400`,
row `399` would need `MIN_IM + 399 * (MAX_IM - MIN_IM) / 400`, which is not
what `rowIm` computes). -/
theorem row_im_independent_of_height (width h1 h2 W1 W2 : ℕ)
    (bufA bufB : ℕ → Option ℕ) (schedA schedB : List ℕ)
    (hW1 : 1 ≤ W1) (hW2 : 1 ≤ W2)
    (hd1 : allDone (exec width h1 bufA W1 schedA) = true)
    (hd2 : allDone (exec width h2 bufB W2 schedB) = true) :
    screenHeight = 800 ∧
    (∀ i, i < width * h1 → i < width * h2 →
      (exec width h1 bufA W1 schedA).buf i = (exec width h2 bufB W2 schedB).buf i) ∧
    rowIm 399 ≠ MIN_IM + (399 : ℚ) * (MAX_IM - MIN_IM) / 400 := by
  refine ⟨screenHeight_eq, ?_, ?_⟩
  · intro i hi1 hi2
    rw [exec_buf_cell width h1 W1 bufA schedA hW1 hd1 i hi1,
        exec_buf_cell width h2 W2 bufB schedB hW2 hd2 i hi2]
  · unfold rowIm
    rw [screenHeight_eq]
    norm_num [MIN_IM, MAX_IM]

/-- Witness for C10: completed passes of heights 1 and 2 agree at cell 0. -/
theorem row_im_independent_of_height_witness :
    (allDone (exec 1 1 (fun _ => none) 1 [0, 0, 0]) = true ∧
     allDone (exec 1 2 (fun _ => none) 1 [0, 0, 0, 0, 0]) = true) ∧
    (screenHeight = 800 ∧
     (∀ i, i < 1 * 1 → i < 1 * 2 →
        (exec 1 1 (fun _ => none) 1 [0, 0, 0]).buf i
          = (exec 1 2 (fun _ => none) 1 [0, 0, 0, 0, 0]).buf i) ∧
     rowIm 399 ≠ MIN_IM + (399 : ℚ) * (MAX_IM - MIN_IM) / 400) :=
  ⟨⟨by decide, by decide⟩,
    row_im_independent_of_height 1 1 2 1 1 (fun _ => none) (fun _ => none)
      [0, 0, 0] [0, 0, 0, 0, 0] (Nat.le_refl 1) (Nat.le_refl 1) (by decide) (by decide)⟩

end Mandelbrot
